import Mathlib

/-!
Verification of the core algorithms of the youtube-transcript-rag service:
the transcript chunker (`EmbeddingService.chunk_transcript`), the batch
transcript fetcher (`TranscriptService.fetch_multiple_transcripts`), the
background task pool (`BackgroundProcessor`), the ingestion status policy
(`process_source_background`), and the retrieval ranking engine
(`PineconeService._calculate_overlap`, `_deduplicate_chunks`,
`_group_and_sort_chunks`).

Python floats are modelled as rationals, Python strings as `String`,
Python stable sorts (`sorted` / `list.sort`, both stable, with `key=` and
`reverse=`) as `List.insertionSort` on a key-induced total preorder, and
Python dicts in insertion order as association lists.
-/

namespace YTR

/-- A transcript segment: `{text, start, duration}` as produced by the
transcript API and consumed by `chunk_transcript`. -/
structure Segment where
  text : String
  start : ℚ
  duration : ℚ
deriving DecidableEq, Repr

/-- A chunk produced by `EmbeddingService.chunk_transcript`:
`{text, start_time, end_time, segments}`. -/
structure Chunk where
  text : String
  start_time : ℚ
  end_time : ℚ
  segments : List Segment
deriving DecidableEq, Repr

/-- Error raised by `chunk_transcript`.  `indexError` models Python's
`IndexError` raised by evaluating `segments[0]['start']` on an empty list.
`invalidInput` models the spec's `InvalidInput` error; the code never
produces it (no such error class exists in the repository), it is present
only so that the spec's claim about the error identity can be stated. -/
inductive ChunkError where
  | indexError
  | invalidInput
deriving DecidableEq, Repr

/-- The running state of the chunking loop: the finished chunks, the chunk
being accumulated, and Python's `current_length` counter (the sum of the
segment text lengths added so far, which does not count joining spaces). -/
structure ChunkState where
  chunks : List Chunk
  cur : Chunk
  curLen : Nat
deriving Repr

/-- One iteration of the `for segment in segments` loop of
`EmbeddingService.chunk_transcript`: if appending the segment's text would
push `current_length` past `chunk_size` and the current chunk is non-empty
(Python string truthiness), close the current chunk and seed a new one with
the segment; otherwise append the text (with a joining space), extend
`end_time` and add the segment. -/
def chunk_step (chunk_size : Nat) (st : ChunkState) (seg : Segment) : ChunkState :=
  if chunk_size < st.curLen + seg.text.length ∧ st.cur.text ≠ "" then
    { chunks := st.chunks ++ [st.cur]
      cur := { text := seg.text
               start_time := seg.start
               end_time := seg.start + seg.duration
               segments := [seg] }
      curLen := seg.text.length }
  else
    { chunks := st.chunks
      cur := { text := st.cur.text ++ " " ++ seg.text
               start_time := st.cur.start_time
               end_time := seg.start + seg.duration
               segments := st.cur.segments ++ [seg] }
      curLen := st.curLen + seg.text.length }

/-- `EmbeddingService.chunk_transcript(segments, chunk_size)`.  The Python
code reads `segments[0]['start']` before anything else, so an empty input
raises `IndexError`; otherwise it folds `chunk_step` over the segments
starting from an empty current chunk and finally appends the last chunk if
its text is non-empty. -/
def chunk_transcript (segments : List Segment) (chunk_size : Nat) :
    Except ChunkError (List Chunk) :=
  match segments with
  | [] => .error .indexError
  | s0 :: _ =>
    let final := segments.foldl (chunk_step chunk_size)
      { chunks := []
        cur := { text := "", start_time := s0.start, end_time := 0, segments := [] }
        curLen := 0 }
    .ok (if final.cur.text ≠ "" then final.chunks ++ [final.cur] else final.chunks)

/-- Sum of the segment text lengths (the quantity tracked by Python's
`current_length`). -/
def segLenSum (l : List Segment) : Nat :=
  (l.map (fun s => s.text.length)).sum

/-- Largest segment text length in a list (0 for the empty list). -/
def maxSegLen (l : List Segment) : Nat :=
  (l.map (fun s => s.text.length)).foldr max 0

/-- The payload a successful transcript fetch produces for one video, before
`fetch_transcript` packages it with the video id (language, language code and
segments, as returned by the transcript API). -/
structure FetchPayload where
  language : String
  language_code : String
  segments : List Segment
deriving DecidableEq, Repr

/-- The dict returned by `TranscriptService.fetch_transcript` on success:
`{video_id, language, language_code, segments}` where `video_id` is the
function's own argument. -/
structure TranscriptData where
  video_id : String
  language : String
  language_code : String
  segments : List Segment
deriving DecidableEq, Repr

/-- A per-video error entry `{video_id, error}` as collected by
`fetch_multiple_transcripts` and by `process_source_background`. -/
structure VideoError where
  video_id : String
  error : String
deriving DecidableEq, Repr

/-- `TranscriptService.fetch_transcript(video_id)` with the external
transcript source abstracted as `outcome`: on success it returns a dict
whose `video_id` field is exactly the argument; on failure it raises, which
the batch loop observes as an exception. -/
def fetch_transcript (outcome : String → Except String FetchPayload)
    (video_id : String) : Except String TranscriptData :=
  match outcome video_id with
  | .ok p => .ok { video_id := video_id, language := p.language
                   language_code := p.language_code, segments := p.segments }
  | .error e => .error e

/-- `TranscriptService.fetch_multiple_transcripts(video_ids)`: one fetch per
video id runs on the thread pool; `as_completed` yields the futures in an
arbitrary completion order, modelled by the list `order` (a permutation of
`video_ids`); each completed future appends either to `results` or to
`errors`. -/
def fetch_step (outcome : String → Except String FetchPayload)
    (acc : List TranscriptData × List VideoError) (video_id : String) :
    List TranscriptData × List VideoError :=
  match fetch_transcript outcome video_id with
  | .ok r => (acc.1 ++ [r], acc.2)
  | .error e => (acc.1, acc.2 ++ [{ video_id := video_id, error := e }])

/-- The batch fetch: fold `fetch_step` over the completion order starting
from empty `results` and `errors` lists. -/
def fetch_multiple_transcripts (outcome : String → Except String FetchPayload)
    (order : List String) : List TranscriptData × List VideoError :=
  order.foldl (fetch_step outcome) ([], [])

/-- A task handed to the background pool, with the execution of its body
abstracted as an `Except`: `.ok` for a normal return, `.error` for a raised
exception. -/
structure TaskItem where
  id : Nat
  body : Except String Unit
deriving Repr

/-- The `BackgroundProcessor` state observed by `submit_task`: the `running`
flag and the task queue (a `none` entry is the shutdown sentinel that
`stop()` enqueues). -/
structure PoolState where
  running : Bool
  queue : List (Option TaskItem)
deriving Repr

/-- `BackgroundProcessor.submit_task`: returns `False` without enqueueing
when the pool is not running, otherwise appends the task to the queue and
returns `True`. -/
def submit_task (st : PoolState) (t : TaskItem) : Bool × PoolState :=
  if st.running then (true, { st with queue := st.queue ++ [some t] })
  else (false, st)

/-- Executing one task inside the worker's `try`/`except`: the result
records whether the body returned normally; a raised exception is caught
and logged, never propagated. -/
def run_task (t : TaskItem) : Nat × Bool :=
  match t.body with
  | .ok _ => (t.id, true)
  | .error _ => (t.id, false)

/-- `BackgroundProcessor._worker_loop` as seen by a single worker draining
a queue: each dequeued task is executed to completion with its exceptions
caught (`run_task`), after which the worker returns to the queue; a `none`
(the shutdown sentinel) makes the worker exit.  The returned log lists, in
order, each executed task's id and whether its body succeeded. -/
def worker_loop : List (Option TaskItem) → List (Nat × Bool)
  | [] => []
  | none :: _ => []
  | some t :: rest => run_task t :: worker_loop rest

/-- The final status a source can be left in by the ingestion task. -/
inductive SourceStatus where
  | processing
  | ready
  | failed
deriving DecidableEq, Repr

/-- `PineconeService.store_transcript`'s successful return values: either
the transcript was stored (with a chunk count) or the video already existed
in the vector store and was skipped. -/
inductive StoreOutcome where
  | stored (chunks : Nat)
  | alreadyExists
deriving DecidableEq, Repr

/-- The value of `fetch_multiple_transcripts` as consumed by
`process_source_background`: the per-video successes and errors. -/
structure FetchBatch where
  results : List TranscriptData
  errors : List VideoError
deriving Repr

/-- The storage loop of `process_source_background`: each fetched transcript
is passed to `store_transcript` (abstracted as `store`); a normal return is
appended to `storage_results` (this includes the `already exists` outcome),
a raised exception is appended to `storage_errors`. -/
def storage_step (store : TranscriptData → Except String StoreOutcome)
    (acc : List StoreOutcome × List VideoError) (t : TranscriptData) :
    List StoreOutcome × List VideoError :=
  match store t with
  | .ok r => (acc.1 ++ [r], acc.2)
  | .error e => (acc.1, acc.2 ++ [{ video_id := t.video_id, error := e }])

/-- The storage phase of `process_source_background`: fold `storage_step`
over the fetched transcripts starting from empty result and error lists. -/
def storage_loop (store : TranscriptData → Except String StoreOutcome)
    (ts : List TranscriptData) : List StoreOutcome × List VideoError :=
  ts.foldl (storage_step store) ([], [])

/-- The status policy of `process_source_background` (routes layer): if the
fetch produced zero results the source is marked `failed`; otherwise every
transcript is run through the storage loop, and the source is marked
`failed` when `storage_results` is empty and `ready` otherwise (partial
errors included). -/
def process_source_background (fetch : FetchBatch)
    (store : TranscriptData → Except String StoreOutcome) : SourceStatus :=
  if fetch.results.length = 0 then .failed
  else if (storage_loop store fetch.results).1.length = 0 then .failed
  else .ready

/-- A vector-search match as consumed by the ranking engine: `id`, `score`
and the metadata fields the ranking code reads (`video_id`, `start_time`,
`end_time`) plus the stored text excerpt. -/
structure Match where
  id : String
  score : ℚ
  video_id : String
  start_time : ℚ
  end_time : ℚ
  text : String
deriving DecidableEq, Repr

/-- The total preorder induced by a rational-valued key: `a` may stay before
`b` whenever `k a ≤ k b`.  `List.insertionSort` with this relation is the
stable sort by `k`, which is the semantics of Python's stable `sorted` /
`list.sort` with `key=` (and of `reverse=True` when the key is negated). -/
def keyLE {α : Type} (k : α → ℚ) : α → α → Prop :=
  fun a b => k a ≤ k b

instance {α : Type} (k : α → ℚ) : DecidableRel (keyLE k) :=
  fun a b => inferInstanceAs (Decidable (k a ≤ k b))

instance {α : Type} (k : α → ℚ) : IsTotal α (keyLE k) :=
  ⟨fun a b => le_total (k a) (k b)⟩

instance {α : Type} (k : α → ℚ) : IsTrans α (keyLE k) :=
  ⟨fun _ _ _ h1 h2 => le_trans h1 h2⟩

/-- Stable sort by a rational key (ascending). -/
def sortByKey {α : Type} (k : α → ℚ) (l : List α) : List α :=
  l.insertionSort (keyLE k)

/-- The key for `sorted(chunks, key=lambda x: x.get('score', 0), reverse=True)`:
negating the score turns the descending stable sort into an ascending one. -/
def scoreNeg (m : Match) : ℚ := -m.score

/-- The key for `.sort(key=lambda x: x['metadata']['start_time'])`. -/
def startKey (m : Match) : ℚ := m.start_time

/-- `PineconeService._calculate_overlap(chunk1, chunk2)`: the shared span of
the two timestamp intervals as a fraction of the shorter interval, with an
early `0.0` when the spans do not positively overlap and a guard against a
zero-length shorter span. -/
def calculate_overlap (c1 c2 : Match) : ℚ :=
  if min c1.end_time c2.end_time ≤ max c1.start_time c2.start_time then 0
  else if min (c1.end_time - c1.start_time) (c2.end_time - c2.start_time) = 0 then 0
  else (min c1.end_time c2.end_time - max c1.start_time c2.start_time) /
    min (c1.end_time - c1.start_time) (c2.end_time - c2.start_time)

/-- One iteration of the deduplication walk: the candidate is dropped when
it overlaps more than the 0.8 threshold with any already-kept match of the
same video, and appended to the kept list otherwise. -/
def dedupStep (kept : List Match) (c : Match) : List Match :=
  if kept.any (fun kc =>
      c.video_id == kc.video_id && decide (4 / 5 < calculate_overlap c kc)) then
    kept
  else kept ++ [c]

/-- `PineconeService._deduplicate_chunks(chunks)`: sort by score descending
(stable), greedily keep matches that do not overlap an already-kept match of
the same video by more than 0.8, then apply the safety floor: if fewer than
3 matches survived while at least 3 were available, return the top 3 of the
sorted list instead. -/
def deduplicate_chunks (chunks : List Match) : List Match :=
  match chunks with
  | [] => []
  | _ :: _ =>
    let sorted_chunks := sortByKey scoreNeg chunks
    let deduplicated := sorted_chunks.foldl dedupStep []
    if deduplicated.length < 3 ∧ 3 ≤ sorted_chunks.length then
      sorted_chunks.take 3
    else deduplicated

/-- Inserting one match into the association list that models
`videos_dict`: Python dicts keep keys in insertion order and
`videos_dict[video_id].append(chunk)` appends at the end of the key's
list. -/
def insertGroup (gs : List (String × List Match)) (c : Match) :
    List (String × List Match) :=
  match gs with
  | [] => [(c.video_id, [c])]
  | (v, ms) :: rest =>
    if v = c.video_id then (v, ms ++ [c]) :: rest
    else (v, ms) :: insertGroup rest c

/-- The `videos_dict` built by `_group_and_sort_chunks`: groups keyed by
`video_id` in first-occurrence order, each group holding its matches in
input order. -/
def groupByVideo (l : List Match) : List (String × List Match) :=
  l.foldl insertGroup []

/-- `max(chunk.get('score', 0) for chunk in ...)`: the greatest score in a
group (0 for an empty list, which never occurs for a real group). -/
def maxScore : List Match → ℚ
  | [] => 0
  | c :: cs => cs.foldl (fun acc m => max acc m.score) c.score

/-- `PineconeService._group_and_sort_chunks(chunks)`: group by `video_id`
(insertion order), sort each group by `start_time`, order the groups by
their maximum score descending (stable), and flatten. -/
def group_and_sort_chunks (chunks : List Match) : List Match :=
  match chunks with
  | [] => []
  | _ :: _ =>
    let gs := (groupByVideo chunks).map (fun g => (g.1, sortByKey startKey g.2))
    let sorted_videos := sortByKey (fun g => -(maxScore g.2)) gs
    (sorted_videos.map Prod.snd).flatten

/-- The ranking pipeline applied by `query_videos` to the raw matches:
deduplication followed by group-and-sort. -/
def rank_matches (chunks : List Match) : List Match :=
  group_and_sort_chunks (deduplicate_chunks chunks)

/-- The symmetric no-excessive-overlap relation the deduplication walk
establishes between any two kept matches. -/
def relOK (a b : Match) : Prop :=
  a.video_id = b.video_id →
    calculate_overlap a b ≤ 4 / 5 ∧ calculate_overlap b a ≤ 4 / 5

instance (a b : Match) : Decidable (relOK a b) := by
  unfold relOK; infer_instance

/-- Adding one key to the insertion-ordered key list of `videos_dict`. -/
def addKey (ks : List String) (v : String) : List String :=
  if v ∈ ks then ks else ks ++ [v]

/-- The keys of `videos_dict` in insertion order: each match adds its
`video_id` if it is not present yet. -/
def dictKeys (l : List Match) : List String :=
  l.foldl (fun ks m => addKey ks m.video_id) []

/-- The per-video Bool predicate used to carve a video's matches out of a
list. -/
def vidP (v : String) : Match → Bool := fun m => m.video_id == v

/-- The complement predicate: all matches of other videos. -/
def notVidP (v : String) : Match → Bool := fun m => !(m.video_id == v)

/-- Recursive normal form of the group-and-sort step on a score-sorted
list: take the first video's matches (start-sorted) as the first block and
recurse on the remaining videos.  `group_and_sort_chunks` agrees with it on
score-sorted inputs, which is the shape deduplication always hands it. -/
def groupBlocks : List Match → List Match
  | [] => []
  | a :: t =>
    sortByKey startKey ((a :: t).filter (vidP a.video_id)) ++
      groupBlocks (t.filter (notVidP a.video_id))
termination_by l => l.length
decreasing_by
  simp only [List.length_cons]
  exact Nat.lt_succ_of_le (List.length_filter_le _ _)

/-- The group-and-sort output written through `videos_dict`'s key list: one
start-sorted block per first-occurrence key, flattened in key order.  On
score-sorted inputs this agrees with `group_and_sort_chunks` (the group
sort is then the identity) and with `groupBlocks`. -/
def flattenGroups (l : List Match) : List Match :=
  ((dictKeys l).map (fun v => sortByKey startKey (l.filter (vidP v)))).flatten

instance {ε α : Type} [DecidableEq ε] [DecidableEq α] : DecidableEq (Except ε α) :=
  fun x y =>
    match x, y with
    | .ok a, .ok b =>
      if h : a = b then isTrue (by rw [h]) else isFalse (fun hh => h (Except.ok.inj hh))
    | .error a, .error b =>
      if h : a = b then isTrue (by rw [h]) else isFalse (fun hh => h (Except.error.inj hh))
    | .ok _, .error _ => isFalse (fun hh => Except.noConfusion hh)
    | .error _, .ok _ => isFalse (fun hh => Except.noConfusion hh)

/-- The text of the first segment of the spec's two-segment chunking
scenario: 600 copies of the character a. -/
def aText : String := String.mk (List.replicate 600 'a')

/-- The text of the second segment of the scenario: 600 copies of b. -/
def bText : String := String.mk (List.replicate 600 'b')

/-- First segment of the spec's concrete chunking scenario. -/
def c3seg1 : Segment := { text := aText, start := 0, duration := 5 }

/-- Second segment of the spec's concrete chunking scenario. -/
def c3seg2 : Segment := { text := bText, start := 5, duration := 5 }

/-- A two-segment input whose single output chunk exceeds the chunk size
through joining spaces. -/
def c5seg1 : Segment := { text := "aa", start := 0, duration := 1 }

/-- Companion segment for the chunk-size bound counterexample. -/
def c5seg2 : Segment := { text := "bb", start := 1, duration := 1 }

/-- The chunk actually produced for `[c5seg1, c5seg2]` with chunk size 4:
six characters of text from four characters of segments. -/
def c5chunk : Chunk :=
  { text := " aa bb", start_time := 0, end_time := 2, segments := [c5seg1, c5seg2] }

/-- The per-chunk size bound the chunker really guarantees: the chunk text
can exceed the chunk size only by the joining spaces (one per segment), or
because a single segment inside it is itself longer than the chunk size. -/
def goodChunk (chunk_size : Nat) (c : Chunk) : Prop :=
  c.text.length ≤ max chunk_size (maxSegLen c.segments) + c.segments.length

/-- The loop invariant of the chunking fold: every closed chunk satisfies
the size bound, `current_length` is the sum of the current segments' text
lengths, the current text exceeds that sum only by joining spaces, and the
current length is bounded whenever the current text is non-empty. -/
def chunkInv (chunk_size : Nat) (st : ChunkState) : Prop :=
  (∀ c ∈ st.chunks, goodChunk chunk_size c) ∧
  st.curLen = segLenSum st.cur.segments ∧
  st.cur.text.length ≤ st.curLen + st.cur.segments.length ∧
  (st.cur.text = "" → st.curLen = 0) ∧
  (st.cur.text ≠ "" → st.curLen ≤ max chunk_size (maxSegLen st.cur.segments))

/-- A concrete fetch outcome for exercising `fetch_multiple_transcripts`:
video a has a transcript, all other videos fail. -/
def c6outcome : String → Except String FetchPayload :=
  fun vid =>
    if vid = "a" then .ok { language := "English", language_code := "en", segments := [] }
    else .error "Transcript unavailable"

/-- A concrete fetched transcript for exercising the status policy. -/
def c1transcript : TranscriptData :=
  { video_id := "v1", language := "English", language_code := "en", segments := [] }

/-- C10: `_calculate_overlap` is total with values in `[0, 1]`: it returns 0
whenever the two spans do not positively overlap, and also returns 0
whenever the shorter span has zero duration, so deduplication never divides
by zero. -/
theorem overlap_total_range (c1 c2 : Match) :
    0 ≤ calculate_overlap c1 c2 ∧ calculate_overlap c1 c2 ≤ 1 ∧
    (min c1.end_time c2.end_time ≤ max c1.start_time c2.start_time →
      calculate_overlap c1 c2 = 0) ∧
    (min (c1.end_time - c1.start_time) (c2.end_time - c2.start_time) = 0 →
      calculate_overlap c1 c2 = 0) := by
  unfold calculate_overlap
  by_cases h1 : min c1.end_time c2.end_time ≤ max c1.start_time c2.start_time
  · simp [h1]
  · rw [if_neg h1]
    by_cases h2 : min (c1.end_time - c1.start_time) (c2.end_time - c2.start_time) = 0
    · simp [h2]
    · rw [if_neg h2]
      push_neg at h1
      have hs1 : c1.start_time < c1.end_time := by
        have := le_of_max_le_left (le_of_lt h1)
        have := min_le_left c1.end_time c2.end_time
        linarith [lt_of_le_of_lt (le_max_left c1.start_time c2.start_time)
          (lt_of_lt_of_le h1 (min_le_left c1.end_time c2.end_time))]
      have hs2 : c2.start_time < c2.end_time :=
        lt_of_le_of_lt (le_max_right c1.start_time c2.start_time)
          (lt_of_lt_of_le h1 (min_le_right c1.end_time c2.end_time))
      have hd : 0 < min (c1.end_time - c1.start_time) (c2.end_time - c2.start_time) := by
        apply lt_min <;> linarith
      have hnum : 0 ≤ min c1.end_time c2.end_time - max c1.start_time c2.start_time := by
        linarith
      have hle : min c1.end_time c2.end_time - max c1.start_time c2.start_time ≤
          min (c1.end_time - c1.start_time) (c2.end_time - c2.start_time) := by
        apply le_min
        · have := min_le_left c1.end_time c2.end_time
          have := le_max_left c1.start_time c2.start_time
          linarith
        · have := min_le_right c1.end_time c2.end_time
          have := le_max_right c1.start_time c2.start_time
          linarith
      refine ⟨div_nonneg hnum (le_of_lt hd), ?_, ?_, ?_⟩
      · exact (div_le_one hd).mpr hle
      · intro h; exact absurd h (not_le_of_lt h1)
      · intro h; exact absurd h h2

/-- C10 witness: a zero-length span against a long one yields overlap 0. -/
theorem overlap_total_range_witness :
    calculate_overlap ⟨"m1", 1, "V", 0, 0, ""⟩ ⟨"m2", 1, "V", 0, 10, ""⟩ = 0 :=
  (overlap_total_range _ _).2.2.2 (by norm_num)

/-- C4 (amended): the chunker on an empty segment sequence fails with the
uncaught `IndexError` raised by reading `segments[0]['start']` — there is
no dedicated `InvalidInput` error in the code — and in particular it
neither succeeds nor returns an empty chunk list. -/
theorem chunk_empty_fails_index_error (chunk_size : Nat) :
    chunk_transcript [] chunk_size = .error .indexError := rfl

/-- C4 counterexample: on the empty input the chunker does not fail with
the spec's `InvalidInput`; it raises an `IndexError` instead. -/
theorem chunk_empty_error_counterexample :
    chunk_transcript [] 1000 ≠ Except.error ChunkError.invalidInput ∧
    chunk_transcript [] 1000 = Except.error ChunkError.indexError := by
  constructor
  · intro h
    rw [show chunk_transcript [] 1000 = .error .indexError from rfl] at h
    exact ChunkError.noConfusion (Except.error.inj h)
  · rfl

set_option maxRecDepth 8000 in
/-- C3 (amended): on the spec's two-segment scenario the chunker produces
exactly two chunks with the stated timestamps, but the first chunk's text
carries a leading joining space (the code appends a space before every
segment text, including the first): it is a space followed by 600 copies of
a, not the bare 600 copies. -/
theorem chunk_two_segment_scenario :
    chunk_transcript [c3seg1, c3seg2] 1000 =
      .ok [{ text := " " ++ aText, start_time := 0, end_time := 5, segments := [c3seg1] },
           { text := bText, start_time := 5, end_time := 10, segments := [c3seg2] }] := by
  have h1 : chunk_transcript [c3seg1, c3seg2] 1000 =
      .ok [{ text := "" ++ " " ++ aText, start_time := c3seg1.start
             end_time := c3seg1.start + c3seg1.duration, segments := [c3seg1] },
           { text := bText, start_time := c3seg2.start
             end_time := c3seg2.start + c3seg2.duration, segments := [c3seg2] }] := rfl
  rw [h1, show ("" ++ " " : String) = " " from rfl]
  simp only [c3seg1, c3seg2]
  norm_num

set_option maxRecDepth 8000 in
/-- C3 counterexample: the first chunk's text is not 600 copies of a — it
has 601 characters because of the leading joining space. -/
theorem chunk_two_segment_counterexample :
    (chunk_transcript [c3seg1, c3seg2] 1000).toOption.map (List.map Chunk.text) =
      some [" " ++ aText, bText] ∧ " " ++ aText ≠ aText := by
  refine ⟨rfl, fun h => ?_⟩
  have hl := congrArg String.length h
  rw [String.length_append, show (" ").length = 1 from rfl] at hl
  omega

/-- C7: an exception inside a task body is caught inside the worker loop:
the worker records the failed task and executes the next task to
completion, and `submit_task` on the still-running pool returns `true` and
enqueues. -/
theorem worker_loop_liveness (st : PoolState) (t1 t2 u : TaskItem)
    (rest : List (Option TaskItem)) (msg : String)
    (hrun : st.running = true) (hfail : t1.body = .error msg) :
    worker_loop (some t1 :: some t2 :: rest) =
      (t1.id, false) :: run_task t2 :: worker_loop rest ∧
    (submit_task st u).1 = true ∧
    (submit_task st u).2.queue = st.queue ++ [some u] := by
  refine ⟨?_, ?_, ?_⟩
  · simp [worker_loop, run_task, hfail]
  · simp [submit_task, hrun]
  · simp [submit_task, hrun]

theorem segLenSum_append (l : List Segment) (s : Segment) :
    segLenSum (l ++ [s]) = segLenSum l + s.text.length := by
  simp [segLenSum]

theorem maxSegLen_append (l : List Segment) (s : Segment) :
    maxSegLen (l ++ [s]) = max (maxSegLen l) s.text.length := by
  induction l with
  | nil => simp [maxSegLen]
  | cons a l ih =>
    simp only [maxSegLen, List.map_cons, List.foldr_cons, List.map_append,
      List.foldr_append] at ih ⊢
    rw [ih]
    exact (Nat.max_assoc _ _ _).symm

theorem string_append_len (a b : String) :
    (a ++ " " ++ b).length = a.length + 1 + b.length := by
  rw [String.length_append, String.length_append]
  rfl

theorem chunk_step_inv (chunk_size : Nat) (st : ChunkState) (seg : Segment)
    (h : chunkInv chunk_size st) : chunkInv chunk_size (chunk_step chunk_size st seg) := by
  obtain ⟨hgood, hsum, htext, hempty, hbound⟩ := h
  unfold chunk_step
  by_cases hc : chunk_size < st.curLen + seg.text.length ∧ st.cur.text ≠ ""
  · rw [if_pos hc]
    refine ⟨?_, ?_, ?_, ?_, ?_⟩
    · intro c hcmem
      rcases List.mem_append.mp hcmem with hin | hcur
      · exact hgood c hin
      · rw [List.mem_singleton] at hcur
        subst hcur
        have hlen : st.curLen ≤ max chunk_size (maxSegLen st.cur.segments) :=
          hbound hc.2
        unfold goodChunk
        omega
    · simp [segLenSum]
    · simp
    · intro hteq
      have hteq2 : seg.text = "" := hteq
      have : seg.text.length = 0 := by
        rw [hteq2]
        rfl
      simp [this]
    · intro _
      simp only
      have : seg.text.length ≤ maxSegLen [seg] := by
        simp [maxSegLen]
      omega
  · rw [if_neg hc]
    refine ⟨hgood, ?_, ?_, ?_, ?_⟩
    · simp only
      rw [segLenSum_append, hsum]
    · simp only
      rw [string_append_len, List.length_append, List.length_cons,
        List.length_nil]
      omega
    · intro hteq
      exfalso
      have hlen := congrArg String.length hteq
      rw [string_append_len] at hlen
      simp at hlen
    · intro _
      simp only
      rw [maxSegLen_append]
      rcases not_and_or.mp hc with hle | htxt
      · push_neg at hle
        omega
      · push_neg at htxt
        have h0 := hempty htxt
        have : seg.text.length ≤ max (maxSegLen st.cur.segments) seg.text.length :=
          le_max_right _ _
        omega

theorem chunk_fold_inv (chunk_size : Nat) :
    ∀ (l : List Segment) (st : ChunkState), chunkInv chunk_size st →
      chunkInv chunk_size (l.foldl (chunk_step chunk_size) st)
  | [], _, h => h
  | seg :: l, st, h =>
    chunk_fold_inv chunk_size l _ (chunk_step_inv chunk_size st seg h)

/-- C5 (amended): a chunk's text can exceed `chunk_size` only through the
joining spaces (at most one character per segment) or because a single
segment inside it is itself longer than `chunk_size`: every produced chunk
satisfies `text.length ≤ max chunk_size (longest segment) + segment
count`. -/
theorem chunk_length_bound (segments : List Segment) (chunk_size : Nat)
    (cs : List Chunk) (c : Chunk)
    (hok : chunk_transcript segments chunk_size = .ok cs) (hc : c ∈ cs) :
    c.text.length ≤ max chunk_size (maxSegLen c.segments) + c.segments.length := by
  match segments, hok with
  | s0 :: rest, hok =>
    rw [chunk_transcript] at hok
    have hinv : chunkInv chunk_size ((s0 :: rest).foldl (chunk_step chunk_size)
        { chunks := []
          cur := { text := "", start_time := s0.start, end_time := 0, segments := [] }
          curLen := 0 }) := by
      apply chunk_fold_inv
      refine ⟨?_, ?_, ?_, ?_, ?_⟩
      · intro c hcmem
        exact absurd hcmem (List.not_mem_nil c)
      · simp [segLenSum]
      · simp
      · intro _; rfl
      · intro hne; exact absurd rfl hne
    set final := (s0 :: rest).foldl (chunk_step chunk_size)
      { chunks := []
        cur := { text := "", start_time := s0.start, end_time := 0, segments := [] }
        curLen := 0 } with hfinal
    obtain ⟨hgood, hsum, htext, _, hbound⟩ := hinv
    have hcs : cs = if final.cur.text ≠ "" then final.chunks ++ [final.cur]
        else final.chunks := (Except.ok.inj hok).symm
    rw [hcs] at hc
    by_cases hne : final.cur.text ≠ ""
    · rw [if_pos hne] at hc
      rcases List.mem_append.mp hc with hin | hcur
      · exact hgood c hin
      · rw [List.mem_singleton] at hcur
        subst hcur
        have := hbound hne
        omega
    · rw [if_neg hne] at hc
      exact hgood c hc

/-- C5 counterexample: with chunk size 4 the two segments aa and bb land in
one chunk of two segments whose text, six characters, exceeds the chunk
size — the joining spaces are not counted by the length check. -/
theorem chunk_length_counterexample :
    (chunk_transcript [c5seg1, c5seg2] 4).toOption = some [c5chunk] ∧
    2 ≤ c5chunk.segments.length ∧ 4 < c5chunk.text.length := by
  refine ⟨?_, by decide, by decide⟩
  have h1 : (chunk_transcript [c5seg1, c5seg2] 4).toOption =
      some [{ text := "" ++ " " ++ "aa" ++ " " ++ "bb", start_time := c5seg1.start
              end_time := c5seg2.start + c5seg2.duration
              segments := [c5seg1, c5seg2] }] := rfl
  rw [h1]
  have htext : ("" ++ " " ++ "aa" ++ " " ++ "bb" : String) = " aa bb" := rfl
  rw [htext]
  simp only [c5chunk, c5seg1, c5seg2]
  norm_num

/-- C5 witness: the size bound evaluated on the counterexample chunk. -/
theorem chunk_length_bound_witness :
    c5chunk.text.length ≤ max 4 (maxSegLen c5chunk.segments) + c5chunk.segments.length := by
  apply chunk_length_bound [c5seg1, c5seg2] 4 [c5chunk] c5chunk ?_ (by decide)
  have h1 : chunk_transcript [c5seg1, c5seg2] 4 =
      .ok [{ text := "" ++ " " ++ "aa" ++ " " ++ "bb", start_time := c5seg1.start
             end_time := c5seg2.start + c5seg2.duration
             segments := [c5seg1, c5seg2] }] := rfl
  rw [h1]
  have htext : ("" ++ " " ++ "aa" ++ " " ++ "bb" : String) = " aa bb" := rfl
  rw [htext]
  simp only [c5chunk, c5seg1, c5seg2]
  norm_num

theorem storage_foldl (store : TranscriptData → Except String StoreOutcome) :
    ∀ (ts : List TranscriptData) (acc : List StoreOutcome × List VideoError),
      ts.foldl (storage_step store) acc =
        (acc.1 ++ ts.filterMap (fun t => (store t).toOption),
         acc.2 ++ ts.filterMap (fun t =>
           match store t with
           | .ok _ => none
           | .error e => some { video_id := t.video_id, error := e }))
  | [], acc => by simp
  | t :: ts, acc => by
    rw [List.foldl_cons, storage_foldl store ts]
    cases h : store t with
    | ok r => simp [storage_step, h, Except.toOption, List.filterMap_cons]
    | error e => simp [storage_step, h, Except.toOption, List.filterMap_cons]

/-- The successes collected by the storage loop are exactly the non-raising
`store_transcript` calls, in order. -/
theorem storage_loop_fst (store : TranscriptData → Except String StoreOutcome)
    (ts : List TranscriptData) :
    (storage_loop store ts).1 = ts.filterMap (fun t => (store t).toOption) := by
  rw [storage_loop, storage_foldl]
  simp

/-- C1: the status policy of the ingestion task body: zero fetched
transcripts or zero successful store attempts yield `failed`; at least one
successful store attempt (the `already exists` outcome included) yields
`ready` even when other per-video fetches or stores failed. -/
theorem process_source_status_policy (fetch : FetchBatch)
    (store : TranscriptData → Except String StoreOutcome) :
    ((fetch.results.length = 0 ∨ (storage_loop store fetch.results).1.length = 0) →
      process_source_background fetch store = .failed) ∧
    ((∃ t ∈ fetch.results, ∃ r, store t = .ok r) →
      process_source_background fetch store = .ready) := by
  constructor
  · intro h
    unfold process_source_background
    rcases h with h | h
    · rw [if_pos h]
    · by_cases h0 : fetch.results.length = 0
      · rw [if_pos h0]
      · rw [if_neg h0, if_pos h]
  · rintro ⟨t, ht, r, hr⟩
    unfold process_source_background
    have hres : fetch.results.length ≠ 0 := by
      intro h0
      rw [List.length_eq_zero] at h0
      rw [h0] at ht
      exact absurd ht (List.not_mem_nil t)
    have hstore : (storage_loop store fetch.results).1.length ≠ 0 := by
      rw [storage_loop_fst]
      intro h0
      rw [List.length_eq_zero, List.filterMap_eq_nil_iff] at h0
      have := h0 t ht
      rw [hr] at this
      exact Option.noConfusion this
    rw [if_neg hres, if_neg hstore]

/-- C1 witness: one fetched transcript whose store call reports that the
video already exists marks the source ready. -/
theorem process_source_status_policy_witness :
    process_source_background { results := [c1transcript], errors := [] }
      (fun _ => .ok .alreadyExists) = .ready :=
  (process_source_status_policy { results := [c1transcript], errors := [] }
      (fun _ => .ok .alreadyExists)).2
    ⟨c1transcript, List.mem_singleton.mpr rfl, .alreadyExists, rfl⟩

theorem fetch_foldl (outcome : String → Except String FetchPayload) :
    ∀ (order : List String) (acc : List TranscriptData × List VideoError),
      order.foldl (fetch_step outcome) acc =
        (acc.1 ++ order.filterMap (fun v => (fetch_transcript outcome v).toOption),
         acc.2 ++ order.filterMap (fun v =>
           match outcome v with
           | .ok _ => none
           | .error e => some { video_id := v, error := e }))
  | [], acc => by simp
  | v :: order, acc => by
    rw [List.foldl_cons, fetch_foldl outcome order]
    cases h : outcome v with
    | ok p =>
      simp [fetch_step, fetch_transcript, h, Except.toOption, List.filterMap_cons]
    | error e =>
      simp [fetch_step, fetch_transcript, h, Except.toOption, List.filterMap_cons]

/-- Splitting a list through two complementary partial maps preserves the
total count. -/
theorem filterMap_length_partition {α β γ : Type} (f : α → Option β) (g : α → Option γ)
    (h : ∀ a, f a = none ↔ ∃ c, g a = some c) :
    ∀ l : List α, (l.filterMap f).length + (l.filterMap g).length = l.length
  | [] => by simp
  | a :: l => by
    have ih := filterMap_length_partition f g h l
    simp only [List.filterMap_cons]
    cases hf : f a with
    | none =>
      obtain ⟨c, hc⟩ := (h a).mp hf
      rw [hc]
      simp only [List.length_cons]
      omega
    | some b =>
      have hg : g a = none := by
        cases hg : g a with
        | none => rfl
        | some c =>
          have := (h a).mpr ⟨c, hg⟩
          rw [hf] at this
          exact Option.noConfusion this
      rw [hg]
      simp only [List.length_cons]
      omega

/-- C6: `fetch_multiple_transcripts` partitions the submitted video ids:
the result and error counts add up to the input count, and no video id
shows up both as a result's `video_id` and as an error entry's
`video_id`. -/
theorem fetch_multiple_partition (outcome : String → Except String FetchPayload)
    (video_ids order : List String) (hperm : order.Perm video_ids) :
    (fetch_multiple_transcripts outcome order).1.length +
      (fetch_multiple_transcripts outcome order).2.length = video_ids.length ∧
    ∀ v, v ∈ (fetch_multiple_transcripts outcome order).1.map TranscriptData.video_id →
      v ∉ (fetch_multiple_transcripts outcome order).2.map VideoError.video_id := by
  have hchar := fetch_foldl outcome order ([], [])
  rw [fetch_multiple_transcripts, hchar]
  simp only [List.nil_append]
  constructor
  · rw [filterMap_length_partition _ _ (fun a => ?_) order, hperm.length_eq]
    cases h : outcome a with
    | ok p => simp [fetch_transcript, h, Except.toOption]
    | error e => simp [fetch_transcript, h, Except.toOption]
  · intro v hv hv2
    rw [List.mem_map] at hv hv2
    obtain ⟨r, hr, hrv⟩ := hv
    obtain ⟨e, he, hev⟩ := hv2
    rw [List.mem_filterMap] at hr he
    obtain ⟨u, _, hu⟩ := hr
    obtain ⟨u2, _, hu2⟩ := he
    have hok : ∃ p, outcome v = .ok p := by
      cases h : outcome u with
      | ok p =>
        rw [fetch_transcript, h] at hu
        simp [Except.toOption] at hu
        rw [← hu] at hrv
        exact ⟨p, by rw [← hrv]; exact h⟩
      | error e2 =>
        rw [fetch_transcript, h] at hu
        simp [Except.toOption] at hu
    have herr : ∃ m, outcome v = .error m := by
      cases h : outcome u2 with
      | ok p => rw [h] at hu2; exact Option.noConfusion hu2
      | error m =>
        rw [h] at hu2
        have : e = { video_id := u2, error := m } := (Option.some.inj hu2).symm
        rw [this] at hev
        exact ⟨m, by rw [← hev]; exact h⟩
    obtain ⟨p, hp⟩ := hok
    obtain ⟨m, hm⟩ := herr
    rw [hp] at hm
    exact Except.noConfusion hm

/-- C6 witness: two videos, one succeeding and one failing, processed in a
completion order different from the submission order. -/
theorem fetch_multiple_partition_witness :
    (fetch_multiple_transcripts c6outcome ["b", "a"]).1.length +
      (fetch_multiple_transcripts c6outcome ["b", "a"]).2.length = 2 ∧
    ∀ v, v ∈ (fetch_multiple_transcripts c6outcome ["b", "a"]).1.map TranscriptData.video_id →
      v ∉ (fetch_multiple_transcripts c6outcome ["b", "a"]).2.map VideoError.video_id :=
  fetch_multiple_partition c6outcome ["a", "b"] ["b", "a"] (by decide)

theorem sortByKey_sorted {α : Type} (k : α → ℚ) (l : List α) :
    List.Sorted (keyLE k) (sortByKey k l) :=
  List.sorted_insertionSort (keyLE k) l

theorem sortByKey_perm {α : Type} (k : α → ℚ) (l : List α) :
    (sortByKey k l).Perm l :=
  List.perm_insertionSort (keyLE k) l

theorem sortByKey_eq_self {α : Type} {k : α → ℚ} {l : List α}
    (h : List.Sorted (keyLE k) l) : sortByKey k l = l :=
  h.insertionSort_eq

theorem sorted_const_key {α : Type} {k : α → ℚ} {l : List α} {c : ℚ}
    (h : ∀ a ∈ l, k a = c) : List.Sorted (keyLE k) l := by
  induction l with
  | nil => exact List.sorted_nil
  | cons a t ih =>
    rw [List.sorted_cons]
    refine ⟨fun b hb => ?_, ih (fun b hb => h b (List.mem_cons_of_mem a hb))⟩
    unfold keyLE
    rw [h a (List.mem_cons_self a t), h b (List.mem_cons_of_mem a hb)]

theorem orderedInsert_all_ge {α : Type} (k : α → ℚ) (a : α) :
    ∀ m : List α, (∀ x ∈ m, keyLE k a x) →
      List.orderedInsert (keyLE k) a m = a :: m
  | [], _ => rfl
  | c :: cs, h => by
    rw [List.orderedInsert, if_pos (h c (List.mem_cons_self c cs))]

theorem orderedInsert_filter {α : Type} (k : α → ℚ) (p : α → Bool) (a : α) :
    ∀ l : List α, List.Sorted (keyLE k) l →
      (List.orderedInsert (keyLE k) a l).filter p =
        if p a then List.orderedInsert (keyLE k) a (l.filter p) else l.filter p
  | [], _ => by
    simp only [List.orderedInsert, List.filter]
    by_cases hpa : p a
    · rw [hpa]; simp
    · rw [Bool.of_not_eq_true hpa]; simp
  | b :: t, hsort => by
    obtain ⟨hmin, htail⟩ := List.sorted_cons.mp hsort
    by_cases hab : keyLE k a b
    · rw [List.orderedInsert, if_pos hab]
      by_cases hpa : p a
      · rw [if_pos hpa, List.filter_cons, if_pos hpa]
        rw [orderedInsert_all_ge k a ((b :: t).filter p) ?all]
        case all =>
          intro x hx
          rcases List.mem_cons.mp (List.mem_of_mem_filter hx) with hxb | hxt
          · rw [hxb]; exact hab
          · exact le_trans hab (hmin x hxt)
      · rw [if_neg hpa, List.filter_cons, if_neg hpa]
    · rw [List.orderedInsert, if_neg hab]
      have ih := orderedInsert_filter k p a t htail
      by_cases hpa : p a
      · rw [if_pos hpa] at ih ⊢
        by_cases hpb : p b
        · rw [List.filter_cons, if_pos hpb, List.filter_cons, if_pos hpb,
            List.orderedInsert, if_neg hab, ih]
        · rw [List.filter_cons, if_neg hpb, List.filter_cons, if_neg hpb, ih]
      · rw [if_neg hpa] at ih ⊢
        by_cases hpb : p b
        · rw [List.filter_cons, if_pos hpb, List.filter_cons, if_pos hpb, ih]
        · rw [List.filter_cons, if_neg hpb, List.filter_cons, if_neg hpb, ih]

/-- Filtering commutes with the stable sort: the stable sort of a filtered
list is the filtered stable sort. -/
theorem filter_sortByKey {α : Type} (k : α → ℚ) (p : α → Bool) :
    ∀ l : List α, (sortByKey k l).filter p = sortByKey k (l.filter p)
  | [] => rfl
  | a :: l => by
    have hstep : sortByKey k (a :: l) =
        List.orderedInsert (keyLE k) a (sortByKey k l) := rfl
    rw [hstep,
      orderedInsert_filter k p a (sortByKey k l) (sortByKey_sorted k l),
      List.filter_cons]
    by_cases hpa : p a
    · rw [if_pos hpa, if_pos hpa, filter_sortByKey k p l]
      rfl
    · rw [if_neg hpa, if_neg hpa, filter_sortByKey k p l]

/-- Sorting does not change any key class: the subsequence of elements with
a given key value is preserved by the stable sort. -/
theorem filter_key_sortByKey {α : Type} (k : α → ℚ) (c : ℚ) (l : List α) :
    (sortByKey k l).filter (fun a => decide (k a = c)) =
      l.filter (fun a => decide (k a = c)) := by
  rw [filter_sortByKey]
  apply sortByKey_eq_self
  apply sorted_const_key (c := c)
  intro a ha
  exact of_decide_eq_true (List.mem_filter.mp ha).2

/-- Two sorted lists with identical key classes are equal: sortedness plus
the per-key subsequences determine the list. -/
theorem sorted_key_filter_ext {α : Type} (k : α → ℚ) :
    ∀ l₁ l₂ : List α, List.Sorted (keyLE k) l₁ → List.Sorted (keyLE k) l₂ →
      (∀ c : ℚ, l₁.filter (fun a => decide (k a = c)) =
        l₂.filter (fun a => decide (k a = c))) → l₁ = l₂
  | [], [], _, _, _ => rfl
  | [], b :: s, _, _, hf => by
    have h := hf (k b)
    rw [List.filter_nil, List.filter_cons, if_pos (by simp)] at h
    exact List.noConfusion h
  | a :: t, [], _, _, hf => by
    have h := hf (k a)
    rw [List.filter_nil, List.filter_cons, if_pos (by simp)] at h
    exact List.noConfusion h
  | a :: t, b :: s, h₁, h₂, hf => by
    obtain ⟨hmin₁, ht₁⟩ := List.sorted_cons.mp h₁
    obtain ⟨hmin₂, ht₂⟩ := List.sorted_cons.mp h₂
    have hab : k a = k b := by
      have hA := hf (k a)
      rw [List.filter_cons, if_pos (by simp)] at hA
      have hmem : a ∈ (b :: s).filter (fun x => decide (k x = k a)) := by
        rw [← hA]
        exact List.mem_cons_self a _
      have hka : k b ≤ k a := by
        rcases List.mem_cons.mp (List.mem_of_mem_filter hmem) with hh | hh
        · rw [hh]
        · exact hmin₂ a hh
      have hB := hf (k b)
      rw [show (b :: s).filter (fun x => decide (k x = k b)) =
          b :: s.filter (fun x => decide (k x = k b)) from by
        rw [List.filter_cons, if_pos (by simp)]] at hB
      have hmem2 : b ∈ (a :: t).filter (fun x => decide (k x = k b)) := by
        rw [hB]
        exact List.mem_cons_self b _
      have hkb : k a ≤ k b := by
        rcases List.mem_cons.mp (List.mem_of_mem_filter hmem2) with hh | hh
        · rw [hh]
        · exact hmin₁ b hh
      exact le_antisymm hkb hka
    have hA := hf (k a)
    rw [List.filter_cons, if_pos (by simp), List.filter_cons,
      if_pos (by simp [hab.symm])] at hA
    have heq : a = b := (List.cons.inj hA).1
    have htails : ∀ c : ℚ, t.filter (fun x => decide (k x = c)) =
        s.filter (fun x => decide (k x = c)) := by
      intro c
      by_cases hc : c = k a
      · subst hc
        exact (List.cons.inj hA).2
      · have h := hf c
        rw [List.filter_cons, if_neg (by simp [Ne.symm hc]), List.filter_cons,
          if_neg (by simp [hab ▸ Ne.symm hc])] at h
        exact h
    rw [heq, sorted_key_filter_ext k t s ht₁ ht₂ htails]

theorem dictKeys_foldl :
    ∀ (l : List Match) (ks : List String),
      l.foldl (fun ks m => addKey ks m.video_id) ks =
        ks ++ (dictKeys l).filter (fun v => decide (v ∉ ks))
  | [], ks => by simp [dictKeys]
  | m :: l, ks => by
    have hl : dictKeys (m :: l) =
        addKey [] m.video_id ++ (dictKeys l).filter
          (fun v => decide (v ∉ addKey [] m.video_id)) := by
      rw [dictKeys, List.foldl_cons, dictKeys_foldl l]
    have hak : addKey [] m.video_id = [m.video_id] := by
      rw [addKey, if_neg (List.not_mem_nil m.video_id)]
      rfl
    rw [List.foldl_cons, dictKeys_foldl l (addKey ks m.video_id), hl, hak]
    by_cases hmem : m.video_id ∈ ks
    · rw [show addKey ks m.video_id = ks from by rw [addKey, if_pos hmem]]
      rw [List.filter_append]
      rw [show ([m.video_id].filter (fun v => decide (v ∉ ks))) = [] from by
        simp [hmem]]
      rw [List.nil_append, List.filter_filter]
      congr 1
      apply List.filter_congr
      intro v _
      by_cases hv : v ∈ ks
      · simp [hv]
      · have hne : v ≠ m.video_id := fun h => hv (h ▸ hmem)
        simp [hv, hne]
    · rw [show addKey ks m.video_id = ks ++ [m.video_id] from by
        rw [addKey, if_neg hmem]]
      rw [List.filter_append]
      rw [show ([m.video_id].filter (fun v => decide (v ∉ ks))) = [m.video_id] from by
        simp [hmem]]
      rw [List.append_assoc]
      congr 2
      rw [List.filter_filter]
      apply List.filter_congr
      intro v _
      by_cases hv1 : v ∈ ks
      · simp [hv1]
      · by_cases hv2 : v = m.video_id
        · simp [hv1, hv2]
        · simp [hv1, hv2]

theorem dictKeys_cons (m : Match) (t : List Match) :
    dictKeys (m :: t) =
      m.video_id :: (dictKeys t).filter (fun v => decide (v ≠ m.video_id)) := by
  rw [dictKeys, List.foldl_cons,
    show addKey [] m.video_id = [m.video_id] from by
      rw [addKey, if_neg (List.not_mem_nil m.video_id)]; rfl,
    dictKeys_foldl t [m.video_id], List.singleton_append]
  congr 1
  apply List.filter_congr
  intro v _
  simp

theorem dictKeys_mem :
    ∀ (l : List Match) (v : String), v ∈ dictKeys l ↔ ∃ m ∈ l, m.video_id = v
  | [], v => by simp [dictKeys]
  | m :: t, v => by
    rw [dictKeys_cons, List.mem_cons]
    constructor
    · rintro (hv | hv)
      · exact ⟨m, List.mem_cons_self m t, hv.symm⟩
      · obtain ⟨u, hu, huv⟩ := (dictKeys_mem t v).mp (List.mem_of_mem_filter hv)
        exact ⟨u, List.mem_cons_of_mem m hu, huv⟩
    · rintro ⟨u, hu, huv⟩
      rcases List.mem_cons.mp hu with hum | hut
      · left; rw [hum] at huv; exact huv.symm
      · by_cases hv : v = m.video_id
        · left; exact hv
        · right
          rw [List.mem_filter]
          exact ⟨(dictKeys_mem t v).mpr ⟨u, hut, huv⟩, by simp [hv]⟩

theorem dictKeys_nodup : ∀ l : List Match, (dictKeys l).Nodup
  | [] => by simp [dictKeys]
  | m :: t => by
    rw [dictKeys_cons, List.nodup_cons]
    constructor
    · intro hmem
      have := (List.mem_filter.mp hmem).2
      simp at this
    · exact (dictKeys_nodup t).filter _

theorem dictKeys_filter (q : String → Bool) :
    ∀ l : List Match,
      dictKeys (l.filter (fun m => q m.video_id)) = (dictKeys l).filter q
  | [] => by simp [dictKeys]
  | m :: t => by
    rw [List.filter_cons]
    by_cases hq : q m.video_id
    · rw [if_pos hq, dictKeys_cons, dictKeys_filter q t, dictKeys_cons,
        List.filter_cons, if_pos hq, List.filter_filter, List.filter_filter]
      congr 1
      apply List.filter_congr
      intro v _
      by_cases hv : v = m.video_id <;> simp [hv]
    · rw [if_neg hq, dictKeys_filter q t, dictKeys_cons, List.filter_cons,
        if_neg hq, List.filter_filter]
      apply List.filter_congr
      intro v _
      by_cases hv : v = m.video_id
      · rw [hv]
        simp [hq]
      · simp [hv]

theorem insertGroup_map (F : String → List Match) (m : Match) :
    ∀ ks : List String, ks.Nodup →
      insertGroup (ks.map (fun v => (v, F v))) m =
        if m.video_id ∈ ks then
          ks.map (fun v => (v, if v = m.video_id then F v ++ [m] else F v))
        else ks.map (fun v => (v, F v)) ++ [(m.video_id, [m])]
  | [], _ => by
    rw [if_neg (List.not_mem_nil m.video_id)]
    rfl
  | v :: ks, hnd => by
    obtain ⟨hv, hnd'⟩ := List.nodup_cons.mp hnd
    rw [List.map_cons, insertGroup]
    by_cases hveq : v = m.video_id
    · rw [if_pos hveq, if_pos (by rw [List.mem_cons]; exact Or.inl hveq.symm),
        List.map_cons, if_pos hveq]
      congr 1
      apply List.map_congr_left
      intro u hu
      have hune : u ≠ m.video_id := by
        intro h
        rw [← hveq] at h
        exact hv (h ▸ hu)
      rw [if_neg hune]
    · rw [if_neg hveq, insertGroup_map F m ks hnd']
      by_cases hmem : m.video_id ∈ ks
      · rw [if_pos hmem, if_pos (by rw [List.mem_cons]; right; exact hmem),
          List.map_cons, if_neg hveq]
      · rw [if_neg hmem,
          if_neg (by
            rw [List.mem_cons]
            rintro (h | h)
            · exact hveq h.symm
            · exact hmem h)]
        rw [List.cons_append]

theorem groupByVideo_foldl :
    ∀ (l P : List Match),
      l.foldl insertGroup ((dictKeys P).map (fun v => (v, P.filter (vidP v)))) =
        (dictKeys (P ++ l)).map (fun v => (v, (P ++ l).filter (vidP v)))
  | [], P => by simp
  | m :: l, P => by
    rw [List.foldl_cons]
    have hstep : insertGroup ((dictKeys P).map (fun v => (v, P.filter (vidP v)))) m =
        (dictKeys (P ++ [m])).map (fun v => (v, (P ++ [m]).filter (vidP v))) := by
      rw [insertGroup_map (fun v => P.filter (vidP v)) m (dictKeys P) (dictKeys_nodup P)]
      have hdk : dictKeys (P ++ [m]) = addKey (dictKeys P) m.video_id := by
        rw [dictKeys, List.foldl_append]
        rfl
      by_cases hmem : m.video_id ∈ dictKeys P
      · rw [if_pos hmem, hdk, addKey, if_pos hmem]
        apply List.map_congr_left
        intro v _
        rw [List.filter_append]
        by_cases hveq : v = m.video_id
        · rw [if_pos hveq,
            show [m].filter (vidP v) = [m] from by
              simp [vidP, hveq]]
        · rw [if_neg hveq,
            show [m].filter (vidP v) = [] from by
              simp [vidP]
              intro h
              exact hveq h.symm,
            List.append_nil]
      · rw [if_neg hmem, hdk, addKey, if_neg hmem, List.map_append]
        congr 1
        · apply List.map_congr_left
          intro v hvk
          rw [List.filter_append,
            show [m].filter (vidP v) = [] from by
              simp [vidP]
              intro h
              rw [← h] at hvk
              exact hmem hvk,
            List.append_nil]
        · rw [List.map_singleton, List.filter_append,
            show P.filter (vidP m.video_id) = [] from by
              rw [List.filter_eq_nil_iff]
              intro a ha hcontra
              apply hmem
              rw [dictKeys_mem]
              exact ⟨a, ha, of_decide_eq_true hcontra⟩,
            List.nil_append,
            show [m].filter (vidP m.video_id) = [m] from by simp [vidP]]
    rw [hstep, groupByVideo_foldl l (P ++ [m]), List.append_assoc]
    rfl

/-- `videos_dict` in full: the association list groups each first-occurrence
key with exactly the filter of its matches, in insertion order. -/
theorem groupByVideo_eq (l : List Match) :
    groupByVideo l = (dictKeys l).map (fun v => (v, l.filter (vidP v))) := by
  have h := groupByVideo_foldl l []
  simp only [dictKeys, List.foldl_nil, List.map_nil, List.nil_append] at h
  rw [groupByVideo]
  exact h

theorem foldl_maxScore_init :
    ∀ (cs : List Match) (acc : ℚ), acc ≤ cs.foldl (fun a m => max a m.score) acc
  | [], _ => le_refl _
  | c :: cs, acc =>
    le_trans (le_max_left acc c.score) (foldl_maxScore_init cs (max acc c.score))

theorem foldl_maxScore_mem :
    ∀ (cs : List Match) (acc : ℚ) (x : Match), x ∈ cs →
      x.score ≤ cs.foldl (fun a m => max a m.score) acc
  | c :: cs, acc, x, hx => by
    rcases List.mem_cons.mp hx with hxc | hxs
    · rw [hxc]
      exact le_trans (le_max_right acc c.score) (foldl_maxScore_init cs _)
    · exact foldl_maxScore_mem cs _ x hxs

theorem foldl_maxScore_cases :
    ∀ (cs : List Match) (acc : ℚ),
      cs.foldl (fun a m => max a m.score) acc = acc ∨
      ∃ x ∈ cs, cs.foldl (fun a m => max a m.score) acc = x.score
  | [], acc => Or.inl rfl
  | c :: cs, acc => by
    rcases foldl_maxScore_cases cs (max acc c.score) with h | ⟨x, hx, hxe⟩
    · rw [List.foldl_cons, h]
      rcases max_choice acc c.score with hm | hm
      · exact Or.inl hm
      · exact Or.inr ⟨c, List.mem_cons_self c cs, hm⟩
    · exact Or.inr ⟨x, List.mem_cons_of_mem c hx, hxe⟩

theorem le_maxScore_of_mem {l : List Match} {x : Match} (hx : x ∈ l) :
    x.score ≤ maxScore l := by
  match l, hx with
  | c :: cs, hx =>
    rw [maxScore]
    rcases List.mem_cons.mp hx with hxc | hxs
    · rw [hxc]
      exact foldl_maxScore_init cs c.score
    · exact foldl_maxScore_mem cs c.score x hxs

theorem maxScore_mem : ∀ l : List Match, l ≠ [] → ∃ x ∈ l, maxScore l = x.score
  | c :: cs, _ => by
    rw [maxScore]
    rcases foldl_maxScore_cases cs c.score with h | ⟨x, hx, hxe⟩
    · exact ⟨c, List.mem_cons_self c cs, h⟩
    · exact ⟨x, List.mem_cons_of_mem c hx, hxe⟩

theorem maxScore_perm {l₁ l₂ : List Match} (h : l₁.Perm l₂) :
    maxScore l₁ = maxScore l₂ := by
  match l₁, h with
  | [], h =>
    rw [h.nil_eq.symm]
  | c :: cs, h =>
    have h₂ : l₂ ≠ [] := by
      intro hnil
      rw [hnil] at h
      exact List.noConfusion h.eq_nil
    obtain ⟨x, hx, hxe⟩ := maxScore_mem (c :: cs) (List.noConfusion)
    obtain ⟨y, hy, hye⟩ := maxScore_mem l₂ h₂
    rw [hxe, hye]
    have hxy : x.score ≤ maxScore l₂ := le_maxScore_of_mem (h.mem_iff.mp hx)
    have hyx : y.score ≤ maxScore (c :: cs) := le_maxScore_of_mem (h.mem_iff.mpr hy)
    rw [hxe] at hyx
    rw [hye] at hxy
    exact le_antisymm hxy hyx

/-- On a list sorted by score descending, the maximum score is the head's
score. -/
theorem maxScore_sorted_head (a : Match) (t : List Match)
    (h : List.Sorted (keyLE scoreNeg) (a :: t)) : maxScore (a :: t) = a.score := by
  obtain ⟨x, hx, hxe⟩ := maxScore_mem (a :: t) List.noConfusion
  rw [hxe]
  apply le_antisymm
  · rcases List.mem_cons.mp hx with hxa | hxt
    · rw [hxa]
    · have := (List.sorted_cons.mp h).1 x hxt
      unfold keyLE scoreNeg at this
      linarith
  · rw [← hxe]
    exact le_maxScore_of_mem (List.mem_cons_self a t)

/-- Every entry of the (start-sorted) group list of `_group_and_sort_chunks`
is a first-occurrence key paired with the start-sorted filter of its
video's matches. -/
theorem mem_group_pairs (l : List Match) (g : String × List Match)
    (hg : g ∈ (groupByVideo l).map (fun g => (g.1, sortByKey startKey g.2))) :
    ∃ v ∈ dictKeys l, g = (v, sortByKey startKey (l.filter (vidP v))) := by
  rw [groupByVideo_eq, List.map_map] at hg
  obtain ⟨v, hv, hveq⟩ := List.mem_map.mp hg
  exact ⟨v, hv, hveq.symm⟩

/-- C9: the output of `_group_and_sort_chunks` is a flattening of
non-empty per-video blocks: each block holds the matches of exactly one
video sorted by ascending start time, distinct blocks belong to distinct
videos (so a video's matches are never split or interleaved), and the
blocks are ordered by their maximum score, descending. -/
theorem group_and_sort_structure (chunks : List Match) :
    ∃ blocks : List (List Match),
      group_and_sort_chunks chunks = blocks.flatten ∧
      (∀ b ∈ blocks, b ≠ [] ∧ ∃ v, ∀ m ∈ b, m.video_id = v) ∧
      (∀ b ∈ blocks, List.Sorted (keyLE startKey) b) ∧
      blocks.Pairwise (fun b b2 => ∀ m ∈ b, ∀ m2 ∈ b2, m.video_id ≠ m2.video_id) ∧
      blocks.Pairwise (fun b b2 => maxScore b2 ≤ maxScore b) := by
  match chunks with
  | [] =>
    refine ⟨[], rfl, ?_, ?_, List.Pairwise.nil, List.Pairwise.nil⟩
    · intro b hb; exact absurd hb (List.not_mem_nil b)
    · intro b hb; exact absurd hb (List.not_mem_nil b)
  | c :: cs =>
    set l := c :: cs with hl
    set gs := (groupByVideo l).map (fun g => (g.1, sortByKey startKey g.2)) with hgs
    set sortedGroups := sortByKey (fun g => -(maxScore g.2)) gs with hsg
    have hmemchar : ∀ g ∈ sortedGroups,
        ∃ v ∈ dictKeys l, g = (v, sortByKey startKey (l.filter (vidP v))) := by
      intro g hg
      exact mem_group_pairs l g (((sortByKey_perm _ gs).mem_iff).mp hg)
    refine ⟨sortedGroups.map Prod.snd, rfl, ?_, ?_, ?_, ?_⟩
    · intro b hb
      obtain ⟨g, hgmem, hgb⟩ := List.mem_map.mp hb
      obtain ⟨v, hvk, hgv⟩ := hmemchar g hgmem
      obtain ⟨m, hm, hmv⟩ := (dictKeys_mem l v).mp hvk
      constructor
      · rw [← hgb, hgv]
        intro hnil
        have hnil2 : sortByKey startKey (l.filter (vidP v)) = [] := hnil
        have hmm : m ∈ l.filter (vidP v) :=
          List.mem_filter.mpr ⟨hm, by simp [vidP, hmv]⟩
        have hsm : m ∈ sortByKey startKey (l.filter (vidP v)) :=
          ((sortByKey_perm _ _).mem_iff).mpr hmm
        rw [hnil2] at hsm
        exact absurd hsm (List.not_mem_nil m)
      · refine ⟨v, fun m2 hm2 => ?_⟩
        rw [← hgb, hgv] at hm2
        have := ((sortByKey_perm _ _).mem_iff).mp hm2
        exact of_decide_eq_true (List.mem_filter.mp this).2
    · intro b hb
      obtain ⟨g, hgmem, hgb⟩ := List.mem_map.mp hb
      obtain ⟨v, _, hgv⟩ := hmemchar g hgmem
      rw [← hgb, hgv]
      exact sortByKey_sorted startKey _
    · rw [List.pairwise_map]
      have hkeys : sortedGroups.Pairwise (fun g g2 => g.1 ≠ g2.1) := by
        have hgsp : gs.Pairwise (fun g g2 => g.1 ≠ g2.1) := by
          rw [hgs, groupByVideo_eq, List.map_map, List.pairwise_map]
          exact (dictKeys_nodup l).imp (fun h => h)
        exact ((sortByKey_perm _ gs).pairwise_iff (fun h => Ne.symm h)).mpr hgsp
      refine hkeys.imp_of_mem ?_
      intro g g2 hg hg2 hne m hm m2 hm2
      obtain ⟨v, _, hgv⟩ := hmemchar g hg
      obtain ⟨v2, _, hgv2⟩ := hmemchar g2 hg2
      have hmv : m.video_id = v := by
        rw [hgv] at hm
        exact of_decide_eq_true (List.mem_filter.mp
          (((sortByKey_perm _ _).mem_iff).mp hm)).2
      have hmv2 : m2.video_id = v2 := by
        rw [hgv2] at hm2
        exact of_decide_eq_true (List.mem_filter.mp
          (((sortByKey_perm _ _).mem_iff).mp hm2)).2
      rw [hmv, hmv2]
      rw [hgv, hgv2] at hne
      exact hne
    · rw [List.pairwise_map]
      have := sortByKey_sorted (fun g => -(maxScore g.2)) gs
      rw [← hsg] at this
      refine this.imp ?_
      intro g g2 h
      unfold keyLE at h
      simp only at h
      linarith

theorem overlap_comm (a b : Match) :
    calculate_overlap a b = calculate_overlap b a := by
  unfold calculate_overlap
  rw [min_comm b.end_time a.end_time, max_comm b.start_time a.start_time,
    min_comm (b.end_time - b.start_time) (a.end_time - a.start_time)]

theorem relOK_symm {a b : Match} (h : relOK a b) : relOK b a := by
  intro hv
  obtain ⟨h1, h2⟩ := h hv.symm
  exact ⟨h2, h1⟩

/-- What a passed overlap check means for each kept match. -/
theorem sortByKey_length {α : Type} (k : α → ℚ) (l : List α) :
    (sortByKey k l).length = l.length :=
  List.length_insertionSort _ _

theorem dedupStep_check {kept : List Match} {c : Match}
    (h : ¬kept.any (fun kc =>
      c.video_id == kc.video_id && decide (4 / 5 < calculate_overlap c kc)) = true) :
    ∀ kc ∈ kept, relOK kc c := by
  intro kc hkc hv
  rw [List.any_eq_true] at h
  push_neg at h
  have hthis := h kc hkc
  have hno : ¬(4 / 5 : ℚ) < calculate_overlap c kc := by
    intro hlt
    apply hthis
    rw [Bool.and_eq_true]
    exact ⟨by simp [hv], decide_eq_true hlt⟩
  push_neg at hno
  exact ⟨by rw [overlap_comm]; exact hno, hno⟩

theorem dedup_fold_pairwise :
    ∀ (l kept : List Match), kept.Pairwise relOK →
      (l.foldl dedupStep kept).Pairwise relOK
  | [], _, h => h
  | c :: l, kept, h => by
    rw [List.foldl_cons]
    apply dedup_fold_pairwise l
    unfold dedupStep
    by_cases hany : kept.any (fun kc =>
        c.video_id == kc.video_id && decide (4 / 5 < calculate_overlap c kc)) = true
    · rw [if_pos hany]
      exact h
    · rw [if_neg hany]
      rw [List.pairwise_append]
      refine ⟨h, List.pairwise_singleton _ _, ?_⟩
      intro a ha b hb
      rw [List.mem_singleton] at hb
      subst hb
      exact dedupStep_check hany a ha

theorem dedup_fold_sublist :
    ∀ (l kept : List Match), ∃ s : List Match,
      l.foldl dedupStep kept = kept ++ s ∧ s.Sublist l
  | [], kept => ⟨[], by simp⟩
  | c :: l, kept => by
    rw [List.foldl_cons]
    by_cases hany : kept.any (fun kc =>
        c.video_id == kc.video_id && decide (4 / 5 < calculate_overlap c kc)) = true
    · rw [show dedupStep kept c = kept from by unfold dedupStep; rw [if_pos hany]]
      obtain ⟨s, hs, hsub⟩ := dedup_fold_sublist l kept
      exact ⟨s, hs, hsub.cons c⟩
    · rw [show dedupStep kept c = kept ++ [c] from by
        unfold dedupStep; rw [if_neg hany]]
      obtain ⟨s, hs, hsub⟩ := dedup_fold_sublist l (kept ++ [c])
      refine ⟨c :: s, ?_, hsub.cons₂ c⟩
      rw [hs, List.append_assoc, List.singleton_append]

theorem dedup_fold_keep_all :
    ∀ (l kept : List Match), (kept ++ l).Pairwise relOK →
      l.foldl dedupStep kept = kept ++ l
  | [], kept, _ => by simp
  | c :: l, kept, h => by
    rw [List.foldl_cons]
    have hrel : ∀ kc ∈ kept, relOK kc c := by
      intro kc hkc
      rcases List.pairwise_append.mp h with ⟨_, _, hcross⟩
      exact hcross kc hkc c (List.mem_cons_self c l)
    have hany : ¬kept.any (fun kc =>
        c.video_id == kc.video_id && decide (4 / 5 < calculate_overlap c kc)) = true := by
      rw [List.any_eq_true]
      push_neg
      intro kc hkc
      intro hcontra
      rw [Bool.and_eq_true] at hcontra
      obtain ⟨hveq, hover⟩ := hcontra
      have hv : kc.video_id = c.video_id := (eq_of_beq hveq).symm
      have := (hrel kc hkc hv).2
      exact absurd (of_decide_eq_true hover) (not_lt_of_le this)
    rw [show dedupStep kept c = kept ++ [c] from by
      unfold dedupStep
      rw [if_neg hany]]
    rw [dedup_fold_keep_all l (kept ++ [c]) (by
      rw [List.append_assoc, List.singleton_append]
      exact h)]
    rw [List.append_assoc, List.singleton_append]

/-- The deduplicated list is always sorted by score, descending: both the
greedy walk's output (a sublist of the sorted input) and the safety-floor
prefix are. -/
theorem dedup_sorted (chunks : List Match) :
    List.Sorted (keyLE scoreNeg) (deduplicate_chunks chunks) := by
  match chunks with
  | [] => exact List.sorted_nil
  | c :: cs =>
    have hdef : deduplicate_chunks (c :: cs) =
        if ((sortByKey scoreNeg (c :: cs)).foldl dedupStep []).length < 3 ∧
            3 ≤ (sortByKey scoreNeg (c :: cs)).length then
          (sortByKey scoreNeg (c :: cs)).take 3
        else (sortByKey scoreNeg (c :: cs)).foldl dedupStep [] := rfl
    rw [hdef]
    by_cases hfloor : ((sortByKey scoreNeg (c :: cs)).foldl dedupStep []).length < 3 ∧
        3 ≤ (sortByKey scoreNeg (c :: cs)).length
    · rw [if_pos hfloor]
      exact List.Pairwise.sublist (List.take_sublist 3 _)
        (sortByKey_sorted scoreNeg (c :: cs))
    · rw [if_neg hfloor]
      obtain ⟨s, hs, hsub⟩ := dedup_fold_sublist (sortByKey scoreNeg (c :: cs)) []
      rw [hs, List.nil_append]
      exact List.Pairwise.sublist hsub (sortByKey_sorted scoreNeg (c :: cs))

/-- Case analysis shared by the dedup invariant and the idempotence proof:
either the kept matches are pairwise within the overlap bound, or the
safety floor fired and the result is the top 3 by score. -/
theorem dedup_cases (chunks : List Match) :
    (deduplicate_chunks chunks).Pairwise relOK ∨
    (((sortByKey scoreNeg chunks).foldl dedupStep []).length < 3 ∧
      3 ≤ chunks.length ∧
      deduplicate_chunks chunks = (sortByKey scoreNeg chunks).take 3) := by
  match chunks with
  | [] => exact Or.inl List.Pairwise.nil
  | c :: cs =>
    have hdef : deduplicate_chunks (c :: cs) =
        if ((sortByKey scoreNeg (c :: cs)).foldl dedupStep []).length < 3 ∧
            3 ≤ (sortByKey scoreNeg (c :: cs)).length then
          (sortByKey scoreNeg (c :: cs)).take 3
        else (sortByKey scoreNeg (c :: cs)).foldl dedupStep [] := rfl
    by_cases hfloor : ((sortByKey scoreNeg (c :: cs)).foldl dedupStep []).length < 3 ∧
        3 ≤ (sortByKey scoreNeg (c :: cs)).length
    · right
      refine ⟨hfloor.1, ?_, by rw [hdef, if_pos hfloor]⟩
      have h2 := hfloor.2
      rw [sortByKey_length] at h2
      exact h2
    · left
      rw [hdef, if_neg hfloor]
      exact dedup_fold_pairwise _ [] List.Pairwise.nil

/-- C2: after deduplication, either every pair of kept matches of the same
video overlaps by at most 0.8 (in both orders of comparison), or the safety
floor fired: the greedy walk kept fewer than 3 of at least 3 available
matches, and the result is exactly the top 3 by score. -/
theorem dedup_overlap_invariant (chunks : List Match) :
    (deduplicate_chunks chunks).Pairwise relOK ∨
    (((sortByKey scoreNeg chunks).foldl dedupStep []).length < 3 ∧
      3 ≤ chunks.length ∧
      deduplicate_chunks chunks = (sortByKey scoreNeg chunks).take 3) :=
  dedup_cases chunks

theorem mem_sortByKey {α : Type} {k : α → ℚ} {l : List α} {x : α} :
    x ∈ sortByKey k l ↔ x ∈ l :=
  List.mem_insertionSort _

theorem decide_ne_beq (v u : String) : (decide (v ≠ u)) = !(v == u) := by
  by_cases h : v = u <;> simp [h]

theorem vidP_self (a : Match) : vidP a.video_id a = true := by
  simp [vidP]

theorem vidP_false {u : String} {a : Match} (h : a.video_id ≠ u) :
    vidP u a = false := by
  simp [vidP]
  exact h

theorem filter_vidP_cons_self (a : Match) (t : List Match) :
    (a :: t).filter (vidP a.video_id) = a :: t.filter (vidP a.video_id) := by
  rw [List.filter_cons, if_pos (by rw [vidP_self])]

theorem filter_vidP_cons_ne {u : String} {a : Match} (t : List Match)
    (h : a.video_id ≠ u) : (a :: t).filter (vidP u) = t.filter (vidP u) := by
  rw [List.filter_cons, vidP_false h]
  simp

theorem filter_vid_split (v : String) (t : List Match) :
    (t.filter (vidP v) ++ t.filter (notVidP v)).Perm t := by
  have h := List.filter_append_perm (vidP v) t
  have heq : t.filter (fun x => !(vidP v x)) = t.filter (notVidP v) :=
    List.filter_congr (fun m _ => rfl)
  rw [heq] at h
  exact h

/-- Sorting a group by start time does not change its maximum score. -/
theorem maxScore_sortStart (u : List Match) :
    maxScore (sortByKey startKey u) = maxScore u :=
  maxScore_perm (sortByKey_perm startKey u)

/-- Every member of a score-descending list scores at most the head. -/
theorem sorted_head_bound {a : Match} {t : List Match}
    (h : List.Sorted (keyLE scoreNeg) (a :: t)) :
    ∀ x ∈ a :: t, x.score ≤ a.score := by
  intro x hx
  rcases List.mem_cons.mp hx with hxa | hxt
  · rw [hxa]
  · have := (List.sorted_cons.mp h).1 x hxt
    unfold keyLE scoreNeg at this
    linarith

/-- On a score-sorted list, the first-occurrence key order already
descends by per-video maximum score: the group sort is a no-op. -/
theorem sorted_group_keys :
    ∀ l : List Match, List.Sorted (keyLE scoreNeg) l →
      (dictKeys l).Pairwise (fun v u =>
        maxScore (l.filter (vidP u)) ≤ maxScore (l.filter (vidP v)))
  | [], _ => by
    rw [show dictKeys [] = [] from rfl]
    exact List.Pairwise.nil
  | a :: t, hs => by
    obtain ⟨hmin, ht⟩ := List.sorted_cons.mp hs
    rw [dictKeys_cons, List.pairwise_cons]
    constructor
    · intro u hu
      have hune : u ≠ a.video_id := of_decide_eq_true (List.mem_filter.mp hu).2
      have hut : u ∈ dictKeys t := List.mem_of_mem_filter hu
      rw [filter_vidP_cons_ne t (Ne.symm hune), filter_vidP_cons_self]
      have hfu : t.filter (vidP u) ≠ [] := by
        obtain ⟨m, hm, hmv⟩ := (dictKeys_mem t u).mp hut
        intro hnil
        have : m ∈ t.filter (vidP u) :=
          List.mem_filter.mpr ⟨hm, by simp [vidP, hmv]⟩
        rw [hnil] at this
        exact absurd this (List.not_mem_nil m)
      obtain ⟨x, hxmem, hxe⟩ := maxScore_mem _ hfu
      rw [hxe]
      have hxt : x ∈ t := List.mem_of_mem_filter hxmem
      have hxa : x.score ≤ a.score := by
        have := hmin x hxt
        unfold keyLE scoreNeg at this
        linarith
      exact le_trans hxa (le_maxScore_of_mem (List.mem_cons_self a _))
    · have ihp := sorted_group_keys t ht
      have hsub := List.Pairwise.sublist
        (List.filter_sublist (p := fun v => decide (v ≠ a.video_id)) (dictKeys t)) ihp
      refine hsub.imp_of_mem ?_
      intro v u hvmem humem h
      have hvne : v ≠ a.video_id := of_decide_eq_true (List.mem_filter.mp hvmem).2
      have hune : u ≠ a.video_id := of_decide_eq_true (List.mem_filter.mp humem).2
      rw [filter_vidP_cons_ne t (Ne.symm hune), filter_vidP_cons_ne t (Ne.symm hvne)]
      exact h

/-- On a score-sorted input, `_group_and_sort_chunks` reduces to flattening
the per-video start-sorted blocks in first-occurrence order: the final
group sort is the identity because the key order already descends by
maximum score. -/
theorem group_and_sort_sorted_eq (l : List Match)
    (hs : List.Sorted (keyLE scoreNeg) l) :
    group_and_sort_chunks l = flattenGroups l := by
  match l with
  | [] => rfl
  | c :: cs =>
    have hdef : group_and_sort_chunks (c :: cs) =
        ((sortByKey (fun g => -(maxScore g.2))
          ((groupByVideo (c :: cs)).map (fun g => (g.1, sortByKey startKey g.2)))).map
            Prod.snd).flatten := rfl
    rw [hdef]
    have hgs : (groupByVideo (c :: cs)).map (fun g => (g.1, sortByKey startKey g.2)) =
        (dictKeys (c :: cs)).map
          (fun v => (v, sortByKey startKey ((c :: cs).filter (vidP v)))) := by
      rw [groupByVideo_eq, List.map_map]
      apply List.map_congr_left
      intro v _
      rfl
    rw [hgs]
    have hsorted : List.Sorted (keyLE (fun g => -(maxScore g.2)))
        ((dictKeys (c :: cs)).map
          (fun v => (v, sortByKey startKey ((c :: cs).filter (vidP v))))) := by
      show List.Pairwise _ _
      rw [List.pairwise_map]
      refine (sorted_group_keys (c :: cs) hs).imp ?_
      intro v u h
      have hmx : maxScore (sortByKey startKey ((c :: cs).filter (vidP u))) ≤
          maxScore (sortByKey startKey ((c :: cs).filter (vidP v))) := by
        rw [maxScore_sortStart, maxScore_sortStart]
        exact h
      exact neg_le_neg hmx
    rw [sortByKey_eq_self hsorted, List.map_map, flattenGroups]
    apply congrArg List.flatten
    apply List.map_congr_left
    intro v _
    rfl

/-- The flattened per-video blocks computed through the key list agree with
the recursive normal form. -/
theorem flattenGroups_eq_groupBlocks : ∀ l : List Match, flattenGroups l = groupBlocks l
  | [] => by
    rw [flattenGroups, groupBlocks]
    rfl
  | a :: t => by
    have hIH := flattenGroups_eq_groupBlocks (t.filter (notVidP a.video_id))
    rw [flattenGroups, dictKeys_cons, List.map_cons, List.flatten_cons, groupBlocks]
    congr 1
    rw [← hIH, flattenGroups]
    have hkeys : dictKeys (t.filter (notVidP a.video_id)) =
        (dictKeys t).filter (fun v => decide (v ≠ a.video_id)) := by
      have hq := dictKeys_filter (fun u => !(u == a.video_id)) t
      have hfly : t.filter (fun m => !(m.video_id == a.video_id)) =
          t.filter (notVidP a.video_id) := List.filter_congr (fun m _ => rfl)
      rw [hfly] at hq
      rw [hq]
      apply List.filter_congr
      intro v _
      rw [decide_ne_beq]
    rw [hkeys]
    apply congrArg List.flatten
    apply List.map_congr_left
    intro v hv
    have hvne : v ≠ a.video_id := of_decide_eq_true (List.mem_filter.mp hv).2
    rw [filter_vidP_cons_ne t (Ne.symm hvne)]
    congr 1
    rw [List.filter_filter]
    apply List.filter_congr
    intro m _
    by_cases hm : m.video_id = v
    · have hmv : notVidP a.video_id m = true := by
        simp [notVidP, hm]
        exact fun hh => hvne (hm ▸ hh)
      simp [vidP, hm, hmv]
    · simp [vidP, hm]
termination_by l => l.length
decreasing_by
  simp only [List.length_cons]
  exact Nat.lt_succ_of_le (List.length_filter_le _ _)

/-- The recursive normal form is a permutation of its input. -/
theorem groupBlocks_perm : ∀ l : List Match, (groupBlocks l).Perm l
  | [] => by
    rw [groupBlocks]
  | a :: t => by
    rw [groupBlocks]
    have h1 : (sortByKey startKey ((a :: t).filter (vidP a.video_id))).Perm
        ((a :: t).filter (vidP a.video_id)) := sortByKey_perm _ _
    have h2 := groupBlocks_perm (t.filter (notVidP a.video_id))
    refine (h1.append h2).trans ?_
    rw [filter_vidP_cons_self, List.cons_append]
    exact (filter_vid_split a.video_id t).cons a
termination_by l => l.length
decreasing_by
  simp only [List.length_cons]
  exact Nat.lt_succ_of_le (List.length_filter_le _ _)

/-- Re-sorting a start-sorted block by score and then by start again
restores the block, provided every same-start slice is score-sorted (which
holds for any sublist of a score-sorted list). -/
theorem sortStart_sandwich (u : List Match)
    (h : ∀ s : ℚ, List.Sorted (keyLE scoreNeg)
      (u.filter (fun m => decide (startKey m = s)))) :
    sortByKey startKey (sortByKey scoreNeg (sortByKey startKey u)) =
      sortByKey startKey u := by
  apply sorted_key_filter_ext startKey _ _ (sortByKey_sorted _ _) (sortByKey_sorted _ _)
  intro s
  rw [filter_key_sortByKey startKey s,
    filter_sortByKey scoreNeg _ (sortByKey startKey u),
    filter_key_sortByKey startKey s u,
    sortByKey_eq_self (h s)]

/-- Master lemma for idempotence: on a score-sorted list, re-sorting the
grouped output by score and grouping again reproduces the grouped
output. -/
theorem groupBlocks_restore :
    ∀ (n : Nat) (w : List Match), w.length ≤ n → List.Sorted (keyLE scoreNeg) w →
      groupBlocks (sortByKey scoreNeg (groupBlocks w)) = groupBlocks w := by
  intro n
  induction n with
  | zero =>
    intro w hw _
    have hnil : w = [] := List.length_eq_zero.mp (Nat.le_zero.mp hw)
    subst hnil
    rw [show groupBlocks ([] : List Match) = [] from by rw [groupBlocks],
      show sortByKey scoreNeg ([] : List Match) = [] from rfl,
      show groupBlocks ([] : List Match) = [] from by rw [groupBlocks]]
  | succ n ih =>
    intro w hw hs
    match w with
    | [] =>
      rw [show groupBlocks ([] : List Match) = [] from by rw [groupBlocks],
        show sortByKey scoreNeg ([] : List Match) = [] from rfl,
        show groupBlocks ([] : List Match) = [] from by rw [groupBlocks]]
    | a :: t =>
      have ht : List.Sorted (keyLE scoreNeg) t := (List.sorted_cons.mp hs).2
      have hw's : List.Sorted (keyLE scoreNeg) (t.filter (notVidP a.video_id)) :=
        List.Sorted.filter _ ht
      have hw'len : (t.filter (notVidP a.video_id)).length ≤ n := by
        have h1 := List.length_filter_le (notVidP a.video_id) t
        rw [List.length_cons] at hw
        omega
      have hGB : groupBlocks (a :: t) =
          sortByKey startKey ((a :: t).filter (vidP a.video_id)) ++
            groupBlocks (t.filter (notVidP a.video_id)) := by
        rw [groupBlocks]
      have haB : a ∈ sortByKey startKey ((a :: t).filter (vidP a.video_id)) := by
        rw [mem_sortByKey, filter_vidP_cons_self]
        exact List.mem_cons_self _ _
      have hBvid : ∀ m ∈ sortByKey startKey ((a :: t).filter (vidP a.video_id)),
          m.video_id = a.video_id := by
        intro m hm
        rw [mem_sortByKey] at hm
        have hmf := (List.mem_filter.mp hm).2
        exact eq_of_beq hmf
      have hw'vid : ∀ m ∈ groupBlocks (t.filter (notVidP a.video_id)),
          ¬m.video_id = a.video_id := by
        intro m hm
        have hmw : m ∈ t.filter (notVidP a.video_id) :=
          (groupBlocks_perm _).mem_iff.mp hm
        have hmf := (List.mem_filter.mp hmw).2
        intro hcontra
        rw [show notVidP a.video_id m = false from by simp [notVidP, hcontra]] at hmf
        exact Bool.noConfusion hmf
      have hyne : groupBlocks (a :: t) ≠ [] := by
        rw [hGB]
        intro h0
        exact List.ne_nil_of_mem haB (List.append_eq_nil.mp h0).1
      have hzne : sortByKey scoreNeg (groupBlocks (a :: t)) ≠ [] := by
        intro h0
        apply hyne
        have := sortByKey_length scoreNeg (groupBlocks (a :: t))
        rw [h0] at this
        exact List.length_eq_zero.mp this.symm
      obtain ⟨h0, t0, hzc⟩ : ∃ h0 t0,
          sortByKey scoreNeg (groupBlocks (a :: t)) = h0 :: t0 := by
        cases hcase : sortByKey scoreNeg (groupBlocks (a :: t)) with
        | nil => exact absurd hcase hzne
        | cons x xs => exact ⟨x, xs, rfl⟩
      have hyperm : (groupBlocks (a :: t)).Perm (a :: t) := groupBlocks_perm _
      have hzperm : (sortByKey scoreNeg (groupBlocks (a :: t))).Perm (a :: t) :=
        (sortByKey_perm _ _).trans hyperm
      have hzsorted : List.Sorted (keyLE scoreNeg)
          (sortByKey scoreNeg (groupBlocks (a :: t))) := sortByKey_sorted _ _
      have hscore : h0.score = a.score := by
        have h0w : h0 ∈ a :: t :=
          hzperm.mem_iff.mp (hzc ▸ List.mem_cons_self h0 t0)
        have h1 : h0.score ≤ a.score := sorted_head_bound hs h0 h0w
        have haz : a ∈ h0 :: t0 :=
          hzc ▸ hzperm.mem_iff.mpr (List.mem_cons_self a t)
        have h2 : a.score ≤ h0.score := sorted_head_bound (hzc ▸ hzsorted) a haz
        exact le_antisymm h1 h2
      have hfz : (sortByKey scoreNeg (groupBlocks (a :: t))).filter
            (fun m => decide (scoreNeg m = scoreNeg h0)) =
          (groupBlocks (a :: t)).filter (fun m => decide (scoreNeg m = scoreNeg h0)) :=
        filter_key_sortByKey scoreNeg (scoreNeg h0) _
      have hzf : (sortByKey scoreNeg (groupBlocks (a :: t))).filter
            (fun m => decide (scoreNeg m = scoreNeg h0)) =
          h0 :: t0.filter (fun m => decide (scoreNeg m = scoreNeg h0)) := by
        rw [hzc, List.filter_cons, if_pos (by simp)]
      have haf : a ∈ (sortByKey startKey ((a :: t).filter (vidP a.video_id))).filter
          (fun m => decide (scoreNeg m = scoreNeg h0)) :=
        List.mem_filter.mpr ⟨haB, by simp [scoreNeg, hscore]⟩
      obtain ⟨b, bs, hBf⟩ : ∃ b bs,
          (sortByKey startKey ((a :: t).filter (vidP a.video_id))).filter
            (fun m => decide (scoreNeg m = scoreNeg h0)) = b :: bs := by
        cases hcase : (sortByKey startKey ((a :: t).filter (vidP a.video_id))).filter
            (fun m => decide (scoreNeg m = scoreNeg h0)) with
        | nil =>
          rw [hcase] at haf
          exact absurd haf (List.not_mem_nil a)
        | cons x xs => exact ⟨x, xs, rfl⟩
      have h0vid : h0.video_id = a.video_id := by
        have hchain := hfz
        rw [hzf, hGB, List.filter_append, hBf, List.cons_append] at hchain
        have hb : h0 = b := (List.cons.inj hchain).1
        rw [hb]
        exact hBvid b (List.mem_of_mem_filter (hBf ▸ List.mem_cons_self b bs))
      have hzB : (sortByKey scoreNeg (groupBlocks (a :: t))).filter (vidP a.video_id) =
          sortByKey scoreNeg (sortByKey startKey ((a :: t).filter (vidP a.video_id))) := by
        rw [filter_sortByKey scoreNeg (vidP a.video_id) (groupBlocks (a :: t))]
        congr 1
        rw [hGB, List.filter_append,
          show (groupBlocks (t.filter (notVidP a.video_id))).filter (vidP a.video_id)
              = [] from List.filter_eq_nil_iff.mpr (fun m hm => by
            rw [vidP_false (hw'vid m hm)]
            exact Bool.noConfusion),
          List.append_nil]
        exact List.filter_eq_self.mpr (fun m hm => by simp [vidP, hBvid m hm])
      have hblock : sortByKey startKey
            ((sortByKey scoreNeg (groupBlocks (a :: t))).filter (vidP a.video_id)) =
          sortByKey startKey ((a :: t).filter (vidP a.video_id)) := by
        rw [hzB]
        apply sortStart_sandwich
        intro s
        exact List.Sorted.filter _ (List.Sorted.filter _ hs)
      have hzrest : t0.filter (notVidP a.video_id) =
          sortByKey scoreNeg (groupBlocks (t.filter (notVidP a.video_id))) := by
        have hzn : (sortByKey scoreNeg (groupBlocks (a :: t))).filter
              (notVidP a.video_id) = t0.filter (notVidP a.video_id) := by
          rw [hzc, List.filter_cons,
            show notVidP a.video_id h0 = false from by simp [notVidP, h0vid]]
          simp
        rw [← hzn, filter_sortByKey scoreNeg (notVidP a.video_id) (groupBlocks (a :: t))]
        congr 1
        rw [hGB, List.filter_append,
          show (sortByKey startKey ((a :: t).filter (vidP a.video_id))).filter
              (notVidP a.video_id) = [] from List.filter_eq_nil_iff.mpr (fun m hm => by
            rw [show notVidP a.video_id m = false from by simp [notVidP, hBvid m hm]]
            exact Bool.noConfusion),
          List.nil_append]
        exact List.filter_eq_self.mpr (fun m hm => by
          simp [notVidP]
          exact hw'vid m hm)
      rw [hzc, groupBlocks, h0vid,
        show (h0 :: t0).filter (vidP a.video_id) =
            (sortByKey scoreNeg (groupBlocks (a :: t))).filter (vidP a.video_id) from by
          rw [hzc],
        hblock, hzrest, ih _ hw'len hw's, hGB]

/-- When all pairs already satisfy the overlap bound, deduplication keeps
everything and only re-sorts by score. -/
theorem dedup_of_pairwise (y : List Match) (h : y.Pairwise relOK) :
    deduplicate_chunks y = sortByKey scoreNeg y := by
  match y with
  | [] => rfl
  | c :: cs =>
    have hdef : deduplicate_chunks (c :: cs) =
        if ((sortByKey scoreNeg (c :: cs)).foldl dedupStep []).length < 3 ∧
            3 ≤ (sortByKey scoreNeg (c :: cs)).length then
          (sortByKey scoreNeg (c :: cs)).take 3
        else (sortByKey scoreNeg (c :: cs)).foldl dedupStep [] := rfl
    have hp : (sortByKey scoreNeg (c :: cs)).Pairwise relOK :=
      ((sortByKey_perm scoreNeg (c :: cs)).pairwise_iff relOK_symm).mpr h
    have hall : (sortByKey scoreNeg (c :: cs)).foldl dedupStep [] =
        sortByKey scoreNeg (c :: cs) := by
      have hka := dedup_fold_keep_all (sortByKey scoreNeg (c :: cs)) []
      rw [List.nil_append] at hka
      exact hka hp
    rw [hdef, hall, if_neg (fun hcontra => by omega)]

/-- A three-element list cannot shrink below the safety floor without the
floor restoring all three: deduplication on it is the score sort. -/
theorem dedup_of_length3 (y : List Match) (hlen : y.length = 3) :
    deduplicate_chunks y = sortByKey scoreNeg y := by
  match y, hlen with
  | c :: cs, hlen =>
    have hdef : deduplicate_chunks (c :: cs) =
        if ((sortByKey scoreNeg (c :: cs)).foldl dedupStep []).length < 3 ∧
            3 ≤ (sortByKey scoreNeg (c :: cs)).length then
          (sortByKey scoreNeg (c :: cs)).take 3
        else (sortByKey scoreNeg (c :: cs)).foldl dedupStep [] := rfl
    have hsc : (sortByKey scoreNeg (c :: cs)).length = 3 := by
      rw [sortByKey_length]
      exact hlen
    obtain ⟨s, hs, hsub⟩ := dedup_fold_sublist (sortByKey scoreNeg (c :: cs)) []
    rw [List.nil_append] at hs
    by_cases hd : ((sortByKey scoreNeg (c :: cs)).foldl dedupStep []).length < 3
    · rw [hdef, if_pos ⟨hd, by omega⟩]
      exact List.take_of_length_le (by omega)
    · rw [hdef, if_neg (fun hcontra => hd hcontra.1)]
      rw [hs]
      apply hsub.eq_of_length
      have hle := hsub.length_le
      rw [hs] at hd
      omega

/-- Deduplicating an already-ranked list only re-sorts it by score: either
the ranked list is pairwise within the overlap bound, or it is the
three-element floor output, and in both cases nothing is dropped. -/
theorem dedup_rank (x : List Match) :
    deduplicate_chunks (rank_matches x) = sortByKey scoreNeg (rank_matches x) := by
  have hds := dedup_sorted x
  have hrank : rank_matches x = groupBlocks (deduplicate_chunks x) := by
    rw [rank_matches, group_and_sort_sorted_eq _ hds, flattenGroups_eq_groupBlocks]
  have hperm : (rank_matches x).Perm (deduplicate_chunks x) := by
    rw [hrank]
    exact groupBlocks_perm _
  rcases dedup_cases x with hpw | ⟨hlt, hge, heq⟩
  · exact dedup_of_pairwise _ ((hperm.pairwise_iff relOK_symm).mpr hpw)
  · have h3 : (deduplicate_chunks x).length = 3 := by
      rw [heq, List.length_take, sortByKey_length]
      omega
    exact dedup_of_length3 _ (by rw [hperm.length_eq, h3])

/-- C8: the ranking pipeline (deduplication followed by group-and-sort) is
idempotent: ranking an already-ranked list changes nothing.  Deduplication
of a ranked list keeps every element and merely re-sorts by score, and
re-grouping the re-sorted list reproduces the per-video blocks, their
inner start order and their score-descending block order. -/
theorem rank_idempotent (ms : List Match) :
    rank_matches (rank_matches ms) = rank_matches ms := by
  have hds := dedup_sorted ms
  have hrank : rank_matches ms = groupBlocks (deduplicate_chunks ms) := by
    rw [rank_matches, group_and_sort_sorted_eq _ hds, flattenGroups_eq_groupBlocks]
  have hstep : rank_matches (rank_matches ms) =
      group_and_sort_chunks (sortByKey scoreNeg (rank_matches ms)) := by
    rw [rank_matches, dedup_rank]
  rw [hstep, group_and_sort_sorted_eq _ (sortByKey_sorted scoreNeg _),
    flattenGroups_eq_groupBlocks, hrank]
  exact groupBlocks_restore (deduplicate_chunks ms).length _ le_rfl hds

/-- C7 witness: a concrete failing task followed by a succeeding one. -/
theorem worker_loop_liveness_witness :
    worker_loop [some { id := 1, body := .error "boom" },
        some { id := 2, body := .ok () }] = [(1, false), (2, true)] ∧
    (submit_task { running := true, queue := [] } { id := 3, body := .ok () }).1 = true := by
  have h := worker_loop_liveness { running := true, queue := [] }
    { id := 1, body := .error "boom" } { id := 2, body := .ok () }
    { id := 3, body := .ok () } [] "boom" rfl rfl
  exact ⟨h.1, h.2.1⟩

end YTR
